import Mathlib

/-!
Shallow embedding of the Eaglercraft Server Directory core (src/src/App.jsx).

The source is a single-file React app; its core consists of the Entry Store
(`loadServers`, `addServer`, `importList`), the Query Engine (the `filtered`
memo), the Import/Export codec (the sanitize step of `importList`, plus JSON
export), and the Liveness Prober (`quickPing`).

Modelling conventions:
 - A `ServerItem` record mirrors the `ServerItem` typedef of the source
   (field `url` is what the specification calls `address`, `votes` is
   `voteCount`, `community` is `isUserSupplied`, `source` is `sourceLabel`,
   `short` is `shortDescription`).  Fields that the source treats as
   possibly-`undefined` (`votes`, `community`, `source`) are `Option`s.
 - JavaScript `Map` objects (used by `loadServers` and `importList`) are
   embedded as association lists with JS insertion-order semantics:
   `Map.set` on an existing key updates the value in place (keeping the
   original position), otherwise it appends; `Map.values()` is the list of
   values in that order.
 - `localStorage.getItem` + `JSON.parse` in `loadServers` is embedded by a
   `StoredValue` sum covering the branches the code distinguishes: absent
   raw value, a parse failure (the `catch` path), a parsed non-array value
   and a parsed array of entry-shaped records.
 - The loosely typed records handed to `importList` (parsed JSON) are
   embedded as `RawRecord`, with `Option` fields for possibly missing
   values; the JS truthiness tests the code performs on them (`s.id ||`,
   `s.name ||` …) treat `none` and the empty string as falsy.
-/

/-- Canonical directory entry, mirroring the `ServerItem` typedef of the
source (`id`, `name`, `url`, `tags`, `short`, `region`, `votes`,
`community`, `source`). -/
structure ServerItem where
  id : String
  name : String
  url : String
  tags : List String
  short : String
  region : String
  votes : Option Int
  community : Option Bool
  source : Option String
deriving Repr, DecidableEq

/-- The bundled seed data `SEED_SERVERS` of the source, verbatim. -/
def SEED_SERVERS : List ServerItem :=
  [ { id := ("nexo"), name := ("NexoX"), url := ("wss://nexo-app.net"),
      tags := [("PvP"), ("Economy"), ("Minigames"), ("Survival")],
      short := ("Explore endless adventures."), region := (""),
      votes := none, community := none, source := some ("TopEaglerServers") }
  , { id := ("bedwetter"), name := ("Bedwetter"), url := ("wss://bedwetr.bytommy.uk"),
      tags := [("PvP"), ("Minigames"), ("Survival")],
      short := ("Bedwars by Tommy."), region := (""),
      votes := none, community := none, source := some ("TopEaglerServers") }
  , { id := ("brandor"), name := ("Lost At Brandor"), url := ("wss://31066.ddnod.es"),
      tags := [("PvP"), ("Minigames")],
      short := ("1.8.8 Eagler RPG."), region := (""),
      votes := none, community := none, source := some ("TopEaglerServers") }
  , { id := ("nobnot"), name := ("noBnoT Anarchy"), url := ("wss://eagler.noBnoT.org"),
      tags := [("Anarchy"), ("PvP"), ("Survival")],
      short := ("True anarchy."), region := (""),
      votes := none, community := none, source := some ("TopEaglerServers") }
  , { id := ("webmc"), name := ("WebMC"), url := ("wss://play.webmc.fun"),
      tags := [("PvP"), ("Economy"), ("Minigames"), ("Survival"), ("Creative")],
      short := ("Oneblock server."), region := (""),
      votes := none, community := none, source := some ("TopEaglerServers") }
  , { id := ("carrot"), name := ("CarrotCraft Network"), url := ("wss://eagler.carrot-craft.org"),
      tags := [("PvP"), ("Economy"), ("Survival")],
      short := ("Survival & Skyblock."), region := (""),
      votes := none, community := none, source := some ("TopEaglerServers") }
  , { id := ("cleverteaching"), name := ("xdmany4006MC (Clever Teaching)"), url := ("wss://clever-teaching.com"),
      tags := [("PvP"), ("Minigames"), ("Survival"), ("Creative")],
      short := ("Public hub."), region := (""),
      votes := none, community := none, source := some ("TopEaglerServers") }
  , { id := ("ricenetwork"), name := ("Rice Network x BallCraft"), url := ("wss://mc.ricenetwork.xyz"),
      tags := [("PvP"), ("Economy"), ("Minigames")],
      short := ("Diverse network."), region := (""),
      votes := none, community := none, source := some ("TopEaglerServers") }
  , { id := ("zentic"), name := ("Zentic"), url := ("wss://zentic.cc"),
      tags := [("PvP"), ("Minigames"), ("Practice")],
      short := ("Minemen for Eaglercraft."), region := (""),
      votes := none, community := none, source := some ("TopEaglerServers") }
  , { id := ("zelz"), name := ("ZelzNET"), url := ("wss://play.zelz.net"),
      tags := [("Minigames"), ("Survival")],
      short := ("Active development."), region := (""),
      votes := none, community := none, source := some ("TopEaglerServers") }
  , { id := ("arch"), name := ("ArchMC"), url := ("wss://arch.mc"),
      tags := [("PvP"), ("Minigames"), ("Survival"), ("Creative"), ("Other")],
      short := ("Popular mixed modes."), region := (""),
      votes := none, community := none, source := some ("servers.eaglercraft.com") }
  , { id := ("tuffnet"), name := ("TuffNET"), url := ("wss://play.tuff.tf"),
      tags := [("Survival"), ("PvP"), ("Other")],
      short := ("Cracked MC; any client."), region := (""),
      votes := none, community := none, source := some ("servers.eaglercraft.com") } ]

/-- Result of reading and JSON-parsing the persisted snapshot in
`loadServers`: the raw value may be absent (`!raw`), parsing may throw
(the `catch` branch), the parsed value may not be an array, or it is an
array of entry-shaped records. -/
inductive StoredValue where
  | absent : StoredValue
  | malformed : StoredValue
  | nonArray : StoredValue
  | array : List ServerItem → StoredValue
deriving Repr, DecidableEq

/-- Association-list embedding of a JS `Map` from string keys to entries. -/
abbrev EntryMap := List (String × ServerItem)

/-- JS `Map.has`. -/
def hasKey (m : EntryMap) (k : String) : Bool :=
  m.any (fun p => p.1 == k)

/-- JS `Map.set`: update the binding in place (keeping its original
position) when the key is present, append otherwise.  A JS map holds each
key at most once, so replacing the first binding carrying the key is the
in-place update. -/
def mapSet : EntryMap → String → ServerItem → EntryMap
  | [], k, v => [(k, v)]
  | p :: m, k, v => if p.1 = k then (k, v) :: m else p :: mapSet m k v

/-- JS `if (!m.has(k)) m.set(k, v)`, as used on the seed pass of
`loadServers`. -/
def mapSetIfAbsent : EntryMap → String → ServerItem → EntryMap
  | [], k, v => [(k, v)]
  | p :: m, k, v => if p.1 = k then p :: m else p :: mapSetIfAbsent m k v

/-- JS `Map.get` (first pair holding the key; a JS map holds each key once). -/
def mapLookup (m : EntryMap) (k : String) : Option ServerItem :=
  (m.find? (fun p => p.1 == k)).map (fun p => p.2)

/-- JS `[...m.values()]`. -/
def mapValues (m : EntryMap) : List ServerItem :=
  m.map (fun p => p.2)

/-- `new Map(xs.map(s => [key s, s]))` extended by `for (s of xs) m.set(key s, s)`:
fold `Map.set` over a list of entries, keying each entry by `key`. -/
def buildMap (key : ServerItem → String) (init : EntryMap) (xs : List ServerItem) : EntryMap :=
  xs.foldl (fun m s => mapSet m (key s) s) init

/-- The seed pass of `loadServers`:
`for (const s of SEED_SERVERS) if (!byId.has(s.id)) byId.set(s.id, s)`. -/
def seedPass (init : EntryMap) (seeds : List ServerItem) : EntryMap :=
  seeds.foldl (fun m s => mapSetIfAbsent m s.id s) init

/-- `loadServers` of the source: fall back to `SEED_SERVERS` when the raw
value is absent, fails to parse or is not an array; otherwise merge by `id`,
persisted entries first, then seed entries whose `id` is not yet present. -/
def loadServers : StoredValue → List ServerItem
  | .absent => SEED_SERVERS
  | .malformed => SEED_SERVERS
  | .nonArray => SEED_SERVERS
  | .array parsed =>
      mapValues (seedPass (buildMap (fun s => s.id) [] parsed) SEED_SERVERS)

/-- `addServer` of the source: `setServers(prev => [{...newS}, ...prev])`,
an unconditional prepend with no deduplication. -/
def addServer (newS : ServerItem) (prev : List ServerItem) : List ServerItem :=
  newS :: prev

/-- Loosely shaped record of an imported JSON array, before the sanitize
step of `importList`; every field may be missing. -/
structure RawRecord where
  id : Option String := none
  name : Option String := none
  url : Option String := none
  tags : Option (List String) := none
  short : Option String := none
  region : Option String := none
  votes : Option Int := none
  source : Option String := none
deriving Repr, DecidableEq

/-- JS `a || b` on a possibly-missing string (falsy = missing or empty). -/
def strOr : Option String → String → String
  | some s, d => if s = ("") then d else s
  | none, d => d

/-- One record of the sanitize step of `importList` (`i` is the record's
index in the input array, `now` is `Date.now()`). -/
def sanitizeRecord (now : Nat) (i : Nat) (s : RawRecord) : ServerItem :=
  { id := strOr s.id (("import-") ++ (toString now) ++ ("-") ++ (toString i))
  , name := strOr s.name (strOr s.url ("Unnamed"))
  , url := s.url.getD ("")
  , tags := (s.tags.getD []).filter (fun t => t != (""))
  , short := s.short.getD ("")
  , region := s.region.getD ("")
  , votes := s.votes
  , community := some true
  , source := some (strOr s.source ("import")) }

/-- The `list.map((s, i) => …)` of `importList`, with explicit index. -/
def sanitizeList (now : Nat) : Nat → List RawRecord → List ServerItem
  | _, [] => []
  | i, s :: rest => sanitizeRecord now i s :: sanitizeList now (i + 1) rest

/-- The `/^wss:\/\//.test(url)` check of the source, as a prefix test on
the string's characters. -/
def startsWithWss (s : String) : Bool :=
  ("wss://").toList.isPrefixOf s.toList

/-- The `cleaned` list of `importList`: sanitize every record, then keep
only those whose `url` matches `/^wss:\/\//`. -/
def importCleaned (now : Nat) (list : List RawRecord) : List ServerItem :=
  (sanitizeList now 0 list).filter (fun s => startsWithWss s.url)

/-- The upsert key of `importList`: `p.id || p.url`. -/
def mergeKey (e : ServerItem) : String :=
  if e.id = ("") then e.url else e.id

/-- The merge phase of `importList`: build a map of the previous store
keyed by `id || url`, upsert every cleaned entry by the same key, and
return the map's values. -/
def mergeServers (prev imported : List ServerItem) : List ServerItem :=
  mapValues (buildMap mergeKey (buildMap mergeKey [] prev) imported)

/-- `importList` of the source: sanitize-and-filter, then merge by
`id || url` into the previous store. -/
def importList (now : Nat) (prev : List ServerItem) (list : List RawRecord) : List ServerItem :=
  mergeServers prev (importCleaned now list)

/-- Count the import UI reports after a successful import: the `toast`
in `ImportExport` says `Loaded ${parsed.length} servers.` — the length of
the parsed input array, before any per-record dropping. -/
def importReportedCount (parsed : List RawRecord) : Nat :=
  parsed.length

/-- One record of the JSON export (`JSON.stringify(servers)` followed by a
re-parse): every stored field reappears in the raw record. -/
def encodeRecord (e : ServerItem) : RawRecord :=
  { id := some e.id
  , name := some e.name
  , url := some e.url
  , tags := some e.tags
  , short := some e.short
  , region := some e.region
  , votes := e.votes
  , source := e.source }

/-- The export side of `ImportExport`: serialize the full entry collection.
The JSON text itself is elided; `encodeServers` composes
`JSON.stringify` with the re-parse a later import performs. -/
def encodeServers (servers : List ServerItem) : List RawRecord :=
  servers.map encodeRecord

/-- Lower-casing of a string, character by character, as the characters of
the result: the embedding of JS `toLowerCase()` (`Char.toLower` covers the
basic-latin fragment the directory's data uses). -/
def lowerStr (s : String) : List Char :=
  s.toList.map Char.toLower

/-- Upper-casing of a string: the embedding of JS `toUpperCase()`
(basic-latin fragment, matching `Char.toUpper`). -/
def upperStr (s : String) : String :=
  String.mk (s.toList.map Char.toUpper)

/-- JS `hay.includes(needle)`: `needle` occurs contiguously in `hay`. -/
def includesSubstr (hay needle : List Char) : Bool :=
  hay.tails.any (fun t => needle.isPrefixOf t)

/-- The text filter of the `filtered` memo:
`(s.name + " " + s.url).toLowerCase().includes(q.toLowerCase())`. -/
def matchesQ (s : ServerItem) (q : String) : Bool :=
  includesSubstr (lowerStr (s.name ++ (" ") ++ s.url)) (lowerStr q)

/-- Text-filter predicate following the specification's words, for
comparison with `matchesQ`: the case-insensitive concatenation of the
entry's `name` and `address` (with no separator between them) contains
`queryText` as a substring. -/
def specTextMatch (s : ServerItem) (q : String) : Bool :=
  includesSubstr (lowerStr (s.name ++ s.url)) (lowerStr q)

/-- The tag filter of the `filtered` memo:
`selected.length === 0 || selected.every(t => s.tags?.includes(t))`. -/
def matchesTags (s : ServerItem) (selected : List String) : Bool :=
  selected.isEmpty || selected.all (fun t => s.tags.contains t)

/-- The three values the sort `Select` control can take. -/
inductive SortKey where
  | name : SortKey
  | votes : SortKey
  | source : SortKey
deriving Repr, DecidableEq

/-- `votes || 0` of the votes comparator (absent treated as 0). -/
def votesOr0 (e : ServerItem) : Int :=
  e.votes.getD 0

/-- `source || "zzz"` of the source comparator. -/
def sourceOrZzz (e : ServerItem) : String :=
  strOr e.source ("zzz")

/-- Order relation of the comparator `a.name.localeCompare(b.name)`
(`localeCompare` modelled as code-point lexicographic comparison). -/
def nameLe (a b : ServerItem) : Bool :=
  decide (a.name ≤ b.name)

/-- Order relation of the comparator `(b.votes || 0) - (a.votes || 0)`:
`a` sorts no later than `b` when the comparator is `≤ 0`. -/
def votesLe (a b : ServerItem) : Bool :=
  decide (votesOr0 b ≤ votesOr0 a)

/-- Order relation of the comparator
`(a.source || "zzz").localeCompare(b.source || "zzz")`. -/
def sourceLe (a b : ServerItem) : Bool :=
  decide (sourceOrZzz a ≤ sourceOrZzz b)

/-- The sort stage of the `filtered` memo.  JS `Array.prototype.sort` is
specified only as a stable sort consistent with the comparator; it is
embedded as a stable merge sort ordered by the comparator's `≤ 0` relation.
`localeCompare` (used for `name` and `source`) is modelled as code-point
lexicographic comparison. -/
def sortEntries : SortKey → List ServerItem → List ServerItem
  | .name, out => out.mergeSort nameLe
  | .votes, out => out.mergeSort votesLe
  | .source, out => out.mergeSort sourceLe

/-- The `filtered` memo of the source: filter by query text and selected
tags, then sort by the chosen key. -/
def filteredEntries (servers : List ServerItem) (q : String) (selected : List String)
    (sort : SortKey) : List ServerItem :=
  sortEntries sort (servers.filter (fun s => matchesQ s q && matchesTags s selected))

/-- An asynchronous event a `quickPing` invocation can observe after the
WebSocket is constructed: the socket's `onopen` callback, its `onerror`
callback, or the `setTimeout` timer firing. -/
inductive PingEvent where
  | opened : PingEvent
  | errored : PingEvent
  | timerFired : PingEvent
deriving Repr, DecidableEq

/-- Terminal outcome reported by `quickPing` (the toast each callback
shows), plus the synchronous `new WebSocket` construction failure. -/
inductive PingOutcome where
  | online : PingOutcome
  | unreachable : PingOutcome
  | timedOut : PingOutcome
  | constructionError : PingOutcome
deriving Repr, DecidableEq

/-- Outcome reported by the callback handling each event. -/
def eventOutcome : PingEvent → PingOutcome
  | .opened => .online
  | .errored => .unreachable
  | .timerFired => .timedOut

/-- State of one `quickPing` invocation: the `done` latch and the list of
terminal toasts already shown, in order. -/
structure PingState where
  done : Bool
  reported : List PingOutcome
deriving Repr, DecidableEq

/-- One event arriving at a `quickPing` invocation.  Every callback in the
source starts with `if (done) return;` (the timer's with `if (!done)`), so
an event observed after the latch is set has no effect; the first event
sets the latch and reports its outcome. -/
def stepPing (st : PingState) (e : PingEvent) : PingState :=
  if st.done then st
  else { done := true, reported := st.reported ++ [eventOutcome e] }

/-- Terminal reports of one `quickPing` invocation, given whether
`new WebSocket(s.url)` throws synchronously and, if not, the order in
which the open/error/timer events arrive.  On a synchronous construction
failure the `catch` branch clears the timer before any event can run and
reports the construction error. -/
def quickPingReports (ctorFails : Bool) (events : List PingEvent) : List PingOutcome :=
  if ctorFails then [PingOutcome.constructionError]
  else (events.foldl stepPing { done := false, reported := [] }).reported

/-! ### Lemmas about the JS `Map` embedding -/

/-- Last entry of `xs` whose key is `k` — the value a fold of `Map.set`
over `xs` leaves at key `k`. -/
def findLastKeyed (key : ServerItem → String) (xs : List ServerItem) (k : String) :
    Option ServerItem :=
  xs.foldl (fun acc s => if key s = k then some s else acc) none

/-- Keys of a map are pairwise distinct. -/
def KeysNodup (m : EntryMap) : Prop :=
  (m.map (fun p => p.1)).Nodup

/-- Every pair of the map stores an entry under that entry's key. -/
def Coherent (key : ServerItem → String) (m : EntryMap) : Prop :=
  ∀ p ∈ m, p.1 = key p.2

theorem mapLookup_nil (k : String) : mapLookup [] k = none := rfl

theorem mapLookup_cons (p : String × ServerItem) (m : EntryMap) (k : String) :
    mapLookup (p :: m) k = if p.1 = k then some p.2 else mapLookup m k := by
  by_cases h : p.1 = k
  · rw [mapLookup, List.find?_cons_of_pos _ (by simpa using h), if_pos h]
    rfl
  · rw [mapLookup, List.find?_cons_of_neg _ (by simpa using h), if_neg h]
    rfl

theorem mapLookup_mapSet (m : EntryMap) (k k' : String) (v : ServerItem) :
    mapLookup (mapSet m k v) k' = if k' = k then some v else mapLookup m k' := by
  induction m with
  | nil =>
      by_cases h : k' = k
      · subst h
        simp [mapSet, mapLookup_cons]
      · simp [mapSet, mapLookup_cons, h, Ne.symm h, mapLookup_nil]
  | cons p m ih =>
      rw [mapSet]
      by_cases hp : p.1 = k
      · rw [if_pos hp, mapLookup_cons, mapLookup_cons]
        by_cases hk : k' = k
        · simp [hk]
        · have h1 : ¬(k = k') := fun hc => hk hc.symm
          have h2 : ¬(p.1 = k') := fun hc => hk (hc.symm.trans hp)
          simp [h1, h2, hk]
      · rw [if_neg hp, mapLookup_cons, mapLookup_cons]
        by_cases hpk : p.1 = k'
        · have hk : ¬(k' = k) := fun hc => hp (hpk.trans hc)
          simp [hpk, hk]
        · simp [hpk, ih]

theorem mapLookup_mapSetIfAbsent (m : EntryMap) (k k' : String) (v : ServerItem) :
    mapLookup (mapSetIfAbsent m k v) k' =
      match mapLookup m k' with
      | some w => some w
      | none => if k' = k then some v else none := by
  induction m with
  | nil =>
      by_cases h : k' = k
      · subst h
        simp [mapSetIfAbsent, mapLookup_cons, mapLookup_nil]
      · simp [mapSetIfAbsent, mapLookup_cons, mapLookup_nil, h, Ne.symm h]
  | cons p m ih =>
      rw [mapSetIfAbsent]
      by_cases hp : p.1 = k
      · rw [if_pos hp, mapLookup_cons]
        by_cases hpk : p.1 = k'
        · simp [hpk]
        · have hk : ¬(k' = k) := fun hc => hpk (hp.trans hc.symm)
          rw [if_neg hpk]
          cases h : mapLookup m k' <;> simp [hk]
      · rw [if_neg hp, mapLookup_cons, mapLookup_cons]
        by_cases hpk : p.1 = k'
        · simp [hpk]
        · simp [hpk, ih]

theorem findLastKeyed_cons (key : ServerItem → String) (x : ServerItem)
    (xs : List ServerItem) (k : String) :
    findLastKeyed key (x :: xs) k =
      match findLastKeyed key xs k with
      | some v => some v
      | none => if key x = k then some x else none := by
  have aux : ∀ (ys : List ServerItem) (a : Option ServerItem),
      ys.foldl (fun acc s => if key s = k then some s else acc) a =
        match findLastKeyed key ys k with
        | some v => some v
        | none => a := by
    intro ys
    induction ys with
    | nil => intro a; simp [findLastKeyed]
    | cons y ys ih =>
        intro a
        rw [List.foldl_cons, ih]
        conv_rhs => rw [findLastKeyed, List.foldl_cons, ih]
        cases h : findLastKeyed key ys k with
        | some v => simp
        | none => by_cases hy : key y = k <;> simp [hy]
  rw [findLastKeyed, List.foldl_cons, aux]

theorem mapLookup_buildMap (key : ServerItem → String) (xs : List ServerItem)
    (m : EntryMap) (k : String) :
    mapLookup (buildMap key m xs) k =
      match findLastKeyed key xs k with
      | some v => some v
      | none => mapLookup m k := by
  induction xs generalizing m with
  | nil => simp [buildMap, findLastKeyed]
  | cons x xs ih =>
      rw [buildMap, List.foldl_cons]
      have : xs.foldl (fun m s => mapSet m (key s) s) (mapSet m (key x) x) =
          buildMap key (mapSet m (key x) x) xs := rfl
      rw [this, ih, findLastKeyed_cons]
      cases h : findLastKeyed key xs k with
      | some v => rfl
      | none =>
          rw [mapLookup_mapSet]
          by_cases hx : key x = k
          · simp [hx]
          · have hx' : ¬(k = key x) := fun hc => hx hc.symm
            simp [hx, hx']

theorem mapLookup_seedPass (ss : List ServerItem) (m : EntryMap) (k : String) :
    mapLookup (seedPass m ss) k =
      match mapLookup m k with
      | some w => some w
      | none => ss.find? (fun s => s.id == k) := by
  induction ss generalizing m with
  | nil => cases h : mapLookup m k <;> simp [seedPass, h]
  | cons s ss ih =>
      rw [seedPass, List.foldl_cons]
      have : ss.foldl (fun m t => mapSetIfAbsent m t.id t) (mapSetIfAbsent m s.id s) =
          seedPass (mapSetIfAbsent m s.id s) ss := rfl
      rw [this, ih, mapLookup_mapSetIfAbsent]
      cases h : mapLookup m k with
      | some w => rfl
      | none =>
          by_cases hs : k = s.id
          · rw [if_pos hs]
            rw [List.find?_cons_of_pos _ (by simpa using hs.symm)]
          · rw [if_neg hs]
            rw [List.find?_cons_of_neg _ (by simpa using Ne.symm hs)]

theorem mem_mapSet (m : EntryMap) (k : String) (v : ServerItem)
    (p : String × ServerItem) (h : p ∈ mapSet m k v) : p = (k, v) ∨ p ∈ m := by
  induction m with
  | nil =>
      simp [mapSet] at h
      exact Or.inl h
  | cons q m ih =>
      rw [mapSet] at h
      by_cases hq : q.1 = k
      · rw [if_pos hq] at h
        rcases List.mem_cons.mp h with h1 | h1
        · exact Or.inl h1
        · exact Or.inr (List.mem_cons_of_mem _ h1)
      · rw [if_neg hq] at h
        rcases List.mem_cons.mp h with h1 | h1
        · exact Or.inr (h1 ▸ List.mem_cons_self _ _)
        · rcases ih h1 with h2 | h2
          · exact Or.inl h2
          · exact Or.inr (List.mem_cons_of_mem _ h2)

theorem mem_mapSetIfAbsent (m : EntryMap) (k : String) (v : ServerItem)
    (p : String × ServerItem) (h : p ∈ mapSetIfAbsent m k v) : p = (k, v) ∨ p ∈ m := by
  induction m with
  | nil =>
      simp [mapSetIfAbsent] at h
      exact Or.inl h
  | cons q m ih =>
      rw [mapSetIfAbsent] at h
      by_cases hq : q.1 = k
      · rw [if_pos hq] at h
        exact Or.inr h
      · rw [if_neg hq] at h
        rcases List.mem_cons.mp h with h1 | h1
        · exact Or.inr (h1 ▸ List.mem_cons_self _ _)
        · rcases ih h1 with h2 | h2
          · exact Or.inl h2
          · exact Or.inr (List.mem_cons_of_mem _ h2)

theorem mem_keys_mapSet (m : EntryMap) (k : String) (v : ServerItem) (a : String)
    (h : a ∈ (mapSet m k v).map (fun p => p.1)) :
    a = k ∨ a ∈ m.map (fun p => p.1) := by
  obtain ⟨p, hp, hpa⟩ := List.mem_map.mp h
  rcases mem_mapSet m k v p hp with h1 | h1
  · left
    rw [← hpa, h1]
  · right
    exact List.mem_map.mpr ⟨p, h1, hpa⟩

theorem mem_keys_mapSetIfAbsent (m : EntryMap) (k : String) (v : ServerItem) (a : String)
    (h : a ∈ (mapSetIfAbsent m k v).map (fun p => p.1)) :
    a = k ∨ a ∈ m.map (fun p => p.1) := by
  obtain ⟨p, hp, hpa⟩ := List.mem_map.mp h
  rcases mem_mapSetIfAbsent m k v p hp with h1 | h1
  · left
    rw [← hpa, h1]
  · right
    exact List.mem_map.mpr ⟨p, h1, hpa⟩

theorem keysNodup_mapSet (m : EntryMap) (k : String) (v : ServerItem)
    (hn : KeysNodup m) : KeysNodup (mapSet m k v) := by
  induction m with
  | nil => simp [mapSet, KeysNodup]
  | cons p m ih =>
      unfold KeysNodup at hn
      rw [List.map_cons, List.nodup_cons] at hn
      rw [mapSet]
      by_cases hp : p.1 = k
      · rw [if_pos hp]
        unfold KeysNodup
        rw [List.map_cons, List.nodup_cons]
        exact ⟨hp ▸ hn.1, hn.2⟩
      · rw [if_neg hp]
        unfold KeysNodup
        rw [List.map_cons, List.nodup_cons]
        refine ⟨?_, ih hn.2⟩
        intro hc
        rcases mem_keys_mapSet m k v p.1 hc with h1 | h1
        · exact hp h1
        · exact hn.1 h1

theorem keysNodup_mapSetIfAbsent (m : EntryMap) (k : String) (v : ServerItem)
    (hn : KeysNodup m) : KeysNodup (mapSetIfAbsent m k v) := by
  induction m with
  | nil => simp [mapSetIfAbsent, KeysNodup]
  | cons p m ih =>
      unfold KeysNodup at hn
      rw [List.map_cons, List.nodup_cons] at hn
      rw [mapSetIfAbsent]
      by_cases hp : p.1 = k
      · rw [if_pos hp]
        unfold KeysNodup
        rw [List.map_cons, List.nodup_cons]
        exact ⟨hn.1, hn.2⟩
      · rw [if_neg hp]
        unfold KeysNodup
        rw [List.map_cons, List.nodup_cons]
        refine ⟨?_, ih hn.2⟩
        intro hc
        rcases mem_keys_mapSetIfAbsent m k v p.1 hc with h1 | h1
        · exact hp h1
        · exact hn.1 h1

theorem keysNodup_buildMap (key : ServerItem → String) (xs : List ServerItem)
    (m : EntryMap) (hn : KeysNodup m) : KeysNodup (buildMap key m xs) := by
  induction xs generalizing m with
  | nil => exact hn
  | cons x xs ih => exact ih (mapSet m (key x) x) (keysNodup_mapSet m (key x) x hn)

theorem keysNodup_seedPass (ss : List ServerItem) (m : EntryMap)
    (hn : KeysNodup m) : KeysNodup (seedPass m ss) := by
  induction ss generalizing m with
  | nil => exact hn
  | cons s ss ih => exact ih (mapSetIfAbsent m s.id s) (keysNodup_mapSetIfAbsent m s.id s hn)

theorem coherent_mapSet (key : ServerItem → String) (m : EntryMap) (v : ServerItem)
    (hc : Coherent key m) : Coherent key (mapSet m (key v) v) := by
  intro p hp
  rcases mem_mapSet m (key v) v p hp with h1 | h1
  · rw [h1]
  · exact hc p h1

theorem coherent_mapSetIfAbsent (key : ServerItem → String) (m : EntryMap)
    (k : String) (v : ServerItem) (hk : k = key v) (hc : Coherent key m) :
    Coherent key (mapSetIfAbsent m k v) := by
  intro p hp
  rcases mem_mapSetIfAbsent m k v p hp with h1 | h1
  · rw [h1, hk]
  · exact hc p h1

theorem coherent_buildMap (key : ServerItem → String) (xs : List ServerItem)
    (m : EntryMap) (hc : Coherent key m) : Coherent key (buildMap key m xs) := by
  induction xs generalizing m with
  | nil => exact hc
  | cons x xs ih => exact ih (mapSet m (key x) x) (coherent_mapSet key m x hc)

theorem coherent_seedPass (ss : List ServerItem) (m : EntryMap)
    (hc : Coherent (fun s => s.id) m) : Coherent (fun s => s.id) (seedPass m ss) := by
  induction ss generalizing m with
  | nil => exact hc
  | cons s ss ih =>
      exact ih (mapSetIfAbsent m s.id s) (coherent_mapSetIfAbsent _ m s.id s rfl hc)

theorem coherent_nil (key : ServerItem → String) : Coherent key [] := by
  intro p hp
  cases hp

theorem keysNodup_nil : KeysNodup [] := by
  simp [KeysNodup]

theorem mapLookup_eq_some_of_mem (m : EntryMap) (k : String) (v : ServerItem)
    (hn : KeysNodup m) (hmem : (k, v) ∈ m) : mapLookup m k = some v := by
  induction m with
  | nil => cases hmem
  | cons p m ih =>
      unfold KeysNodup at hn
      rw [List.map_cons, List.nodup_cons] at hn
      rw [mapLookup_cons]
      rcases List.mem_cons.mp hmem with h1 | h1
      · rw [← h1]
        simp
      · have hk : ¬(p.1 = k) := by
          intro hc
          exact hn.1 (hc ▸ List.mem_map.mpr ⟨(k, v), h1, rfl⟩)
        rw [if_neg hk]
        exact ih hn.2 h1

theorem mem_of_mapLookup (key : ServerItem → String) (m : EntryMap)
    (hc : Coherent key m) (k : String) (v : ServerItem)
    (h : mapLookup m k = some v) : v ∈ mapValues m ∧ key v = k := by
  unfold mapLookup at h
  obtain ⟨p, hp, hp2⟩ := Option.map_eq_some'.mp h
  have hmem := List.mem_of_find?_eq_some hp
  have hpred := List.find?_some hp
  have hpk : p.1 = k := by simpa using hpred
  refine ⟨List.mem_map.mpr ⟨p, hmem, hp2⟩, ?_⟩
  rw [← hp2, ← hc p hmem, hpk]

theorem mem_values_iff (key : ServerItem → String) (m : EntryMap)
    (hc : Coherent key m) (hn : KeysNodup m) (v : ServerItem) :
    v ∈ mapValues m ↔ mapLookup m (key v) = some v := by
  constructor
  · intro hv
    obtain ⟨p, hp, hp2⟩ := List.mem_map.mp hv
    have hmem : (key v, v) ∈ m := by
      have h1 : p = (key v, v) := by
        have h2 := hc p hp
        rw [hp2] at h2
        exact Prod.ext h2 hp2
      exact h1 ▸ hp
    exact mapLookup_eq_some_of_mem m (key v) v hn hmem
  · intro h
    exact (mem_of_mapLookup key m hc (key v) v h).1

theorem mem_keys_iff_isSome (m : EntryMap) (k : String) :
    k ∈ m.map (fun p => p.1) ↔ (mapLookup m k).isSome := by
  rw [mapLookup]
  rw [Option.isSome_map']
  rw [List.find?_isSome]
  constructor
  · intro h
    obtain ⟨p, hp, hpk⟩ := List.mem_map.mp h
    exact ⟨p, hp, by simpa using hpk⟩
  · rintro ⟨p, hp, hpk⟩
    exact List.mem_map.mpr ⟨p, hp, by simpa using hpk⟩

theorem values_map_key (key : ServerItem → String) (m : EntryMap)
    (hc : Coherent key m) : (mapValues m).map key = m.map (fun p => p.1) := by
  unfold mapValues
  rw [List.map_map]
  exact List.map_congr_left (fun p hp => (hc p hp).symm)

theorem findLastKeyed_isSome (key : ServerItem → String) (xs : List ServerItem)
    (k : String) : (findLastKeyed key xs k).isSome ↔ k ∈ xs.map key := by
  induction xs with
  | nil => simp [findLastKeyed]
  | cons x xs ih =>
      rw [findLastKeyed_cons]
      cases h : findLastKeyed key xs k with
      | some v =>
          have hmem : k ∈ xs.map key := ih.mp (by rw [h]; rfl)
          simp [hmem]
      | none =>
          have hmem : ¬(k ∈ xs.map key) := fun hc => by
            have := ih.mpr hc
            rw [h] at this
            exact absurd this (by simp)
          by_cases hx : key x = k
          · simp [hx]
          · simp [hx, Ne.symm hx, hmem]

theorem findLastKeyed_spec (key : ServerItem → String) (xs : List ServerItem)
    (k : String) (v : ServerItem) (h : findLastKeyed key xs k = some v) :
    v ∈ xs ∧ key v = k := by
  induction xs with
  | nil => simp [findLastKeyed] at h
  | cons x xs ih =>
      rw [findLastKeyed_cons] at h
      cases h2 : findLastKeyed key xs k with
      | some w =>
          rw [h2] at h
          have hw : w = v := by simpa using h
          obtain ⟨hmem, hkey⟩ := ih (hw ▸ h2)
          exact ⟨List.mem_cons_of_mem _ hmem, hkey⟩
      | none =>
          rw [h2] at h
          by_cases hx : key x = k
          · rw [if_pos hx] at h
            have hv : x = v := by simpa using h
            exact ⟨hv ▸ List.mem_cons_self _ _, hv ▸ hx⟩
          · rw [if_neg hx] at h
            exact absurd h (by simp)

theorem findLastKeyed_of_nodup (key : ServerItem → String) (xs : List ServerItem)
    (hn : (xs.map key).Nodup) (v : ServerItem) (hv : v ∈ xs) :
    findLastKeyed key xs (key v) = some v := by
  induction xs with
  | nil => cases hv
  | cons x xs ih =>
      rw [List.map_cons, List.nodup_cons] at hn
      rw [findLastKeyed_cons]
      rcases List.mem_cons.mp hv with h1 | h1
      · subst h1
        have hnone : findLastKeyed key xs (key v) = none := by
          cases h2 : findLastKeyed key xs (key v) with
          | none => rfl
          | some w =>
              have : key v ∈ xs.map key := (findLastKeyed_isSome key xs (key v)).mp (by rw [h2]; rfl)
              exact absurd this hn.1
        rw [hnone, if_pos rfl]
      · rw [ih hn.2 h1]

theorem find?_id_of_nodup (xs : List ServerItem)
    (hn : (xs.map (fun s => s.id)).Nodup) (s : ServerItem) (hs : s ∈ xs) :
    xs.find? (fun t => t.id == s.id) = some s := by
  induction xs with
  | nil => cases hs
  | cons x xs ih =>
      rw [List.map_cons, List.nodup_cons] at hn
      rcases List.mem_cons.mp hs with h1 | h1
      · subst h1
        rw [List.find?_cons_of_pos _ (by simp)]
      · have hx : ¬(x.id = s.id) := by
          intro hc
          exact hn.1 (hc ▸ List.mem_map.mpr ⟨s, h1, rfl⟩)
        rw [List.find?_cons_of_neg _ (by simpa using hx)]
        exact ih hn.2 h1

theorem findLastKeyed_values (key : ServerItem → String) (m : EntryMap)
    (hc : Coherent key m) (hn : KeysNodup m) (k : String) :
    findLastKeyed key (mapValues m) k = mapLookup m k := by
  induction m with
  | nil => simp [mapValues, findLastKeyed, mapLookup_nil]
  | cons p m ih =>
      have hc' : Coherent key m := fun q hq => hc q (List.mem_cons_of_mem _ hq)
      unfold KeysNodup at hn
      rw [List.map_cons, List.nodup_cons] at hn
      have hpk : p.1 = key p.2 := hc p (List.mem_cons_self _ _)
      have hvals : mapValues (p :: m) = p.2 :: mapValues m := rfl
      rw [hvals, findLastKeyed_cons, ih hc' hn.2, mapLookup_cons]
      cases h : mapLookup m k with
      | some w =>
          have hk : ¬(p.1 = k) := by
            intro hkc
            have : k ∈ m.map (fun q => q.1) := (mem_keys_iff_isSome m k).mpr (by rw [h]; rfl)
            exact hn.1 (hkc ▸ this)
          simp [hk]
      | none =>
          by_cases hx : key p.2 = k
          · rw [if_pos hx, if_pos (hpk.trans hx)]
          · rw [if_neg hx, if_neg (fun hcc => hx (hpk.symm.trans hcc))]

/-! ### Lemmas about the prober, the text filter and the sorts -/

theorem foldl_stepPing_done (st : PingState) (hd : st.done = true)
    (es : List PingEvent) : es.foldl stepPing st = st := by
  induction es with
  | nil => rfl
  | cons e es ih =>
      rw [List.foldl_cons]
      have hstep : stepPing st e = st := by
        rw [stepPing, if_pos hd]
      rw [hstep]
      exact ih

theorem quickPingReports_cons (e : PingEvent) (es : List PingEvent) :
    quickPingReports false (e :: es) = [eventOutcome e] := by
  rw [quickPingReports, if_neg (by simp)]
  rw [List.foldl_cons]
  have hstep : stepPing { done := false, reported := [] } e =
      { done := true, reported := [eventOutcome e] } := by
    rw [stepPing]
    simp
  rw [hstep, foldl_stepPing_done _ rfl]

theorem includesSubstr_iff (hay needle : List Char) :
    includesSubstr hay needle = true ↔ needle <:+: hay := by
  unfold includesSubstr
  rw [List.any_eq_true]
  constructor
  · rintro ⟨t, ht, hpre⟩
    have hsuf : t <:+ hay := (List.mem_tails t hay).mp ht
    have hp : needle <+: t := by simpa using hpre
    exact List.infix_iff_prefix_suffix.mpr ⟨t, hp, hsuf⟩
  · intro hinf
    obtain ⟨t, hp, hsuf⟩ := List.infix_iff_prefix_suffix.mp hinf
    refine ⟨t, (List.mem_tails t hay).mpr hsuf, ?_⟩
    simpa using hp

theorem toLower_toUpper (c : Char) : c.toUpper.toLower = c.toLower := by
  by_cases h : 97 ≤ c.toNat ∧ c.toNat ≤ 122
  · have key : ∀ n : Nat, 97 ≤ n → n ≤ 122 →
        (Char.ofNat n).toUpper.toLower = (Char.ofNat n).toLower := by
      intro n h1 h2
      interval_cases n <;> decide
    have h3 := key c.toNat h.1 h.2
    rwa [Char.ofNat_toNat] at h3
  · have hup : c.toUpper = c := by
      unfold Char.toUpper
      rw [if_neg (by simpa [ge_iff_le] using h)]
    rw [hup]

theorem lowerStr_append (s t : String) : lowerStr (s ++ t) = lowerStr s ++ lowerStr t := by
  unfold lowerStr
  have hdata : (s ++ t).toList = s.toList ++ t.toList := String.data_append s t
  rw [hdata, List.map_append]

theorem lowerStr_upperStr (s : String) : lowerStr (upperStr s) = lowerStr s := by
  unfold lowerStr upperStr
  have hdata : (String.mk (s.toList.map Char.toUpper)).toList = s.toList.map Char.toUpper := rfl
  rw [hdata, List.map_map]
  exact List.map_congr_left (fun c _ => toLower_toUpper c)

theorem votesLe_trans (a b c : ServerItem) (hab : votesLe a b = true)
    (hbc : votesLe b c = true) : votesLe a c = true := by
  unfold votesLe at *
  simp only [decide_eq_true_eq] at *
  exact le_trans hbc hab

theorem votesLe_total (a b : ServerItem) : (votesLe a b || votesLe b a) = true := by
  unfold votesLe
  simp only [Bool.or_eq_true, decide_eq_true_eq]
  exact le_total _ _

theorem sortVotes_pairwise (l : List ServerItem) :
    (sortEntries .votes l).Pairwise (fun a b => votesOr0 b ≤ votesOr0 a) := by
  have h := List.sorted_mergeSort votesLe_trans votesLe_total l
  have h2 : sortEntries .votes l = l.mergeSort votesLe := rfl
  rw [h2]
  exact h.imp (fun hab => by simpa [votesLe] using hab)

theorem sortVotes_filter_stable (l : List ServerItem) (v : Int) :
    (sortEntries .votes l).filter (fun e => votesOr0 e == v)
      = l.filter (fun e => votesOr0 e == v) := by
  have hsub : (l.filter (fun e => votesOr0 e == v)).Sublist l := List.filter_sublist l
  have hpair : (l.filter (fun e => votesOr0 e == v)).Pairwise
      (fun a b => votesLe a b = true) := by
    apply List.pairwise_of_forall_mem_list
    intro a ha b hb
    have hav : votesOr0 a = v := by simpa using (List.mem_filter.mp ha).2
    have hbv : votesOr0 b = v := by simpa using (List.mem_filter.mp hb).2
    simp [votesLe, hav, hbv]
  have hc : (l.filter (fun e => votesOr0 e == v)).Sublist (l.mergeSort votesLe) :=
    List.sublist_mergeSort votesLe_trans votesLe_total hpair hsub
  have hcf : (l.filter (fun e => votesOr0 e == v)).filter (fun e => votesOr0 e == v)
      = l.filter (fun e => votesOr0 e == v) :=
    List.filter_eq_self.mpr (fun a ha => (List.mem_filter.mp ha).2)
  have hsub2 : (l.filter (fun e => votesOr0 e == v)).Sublist
      ((l.mergeSort votesLe).filter (fun e => votesOr0 e == v)) := by
    rw [← hcf]
    exact hc.filter _
  have hperm : ((l.mergeSort votesLe).filter (fun e => votesOr0 e == v)).Perm
      (l.filter (fun e => votesOr0 e == v)) :=
    (List.mergeSort_perm l votesLe).filter _
  have h2 : sortEntries .votes l = l.mergeSort votesLe := rfl
  rw [h2]
  exact (hsub2.eq_of_length hperm.length_eq.symm).symm

/-! ### Characterization of `loadServers` on the array branch -/

theorem seed_ids_nodup : (SEED_SERVERS.map (fun s => s.id)).Nodup := by
  decide

theorem loadServers_array (E1 : List ServerItem) :
    loadServers (.array E1) =
      mapValues (seedPass (buildMap (fun s => s.id) [] E1) SEED_SERVERS) := rfl

theorem loadedMap_coherent (E1 : List ServerItem) :
    Coherent (fun s => s.id) (seedPass (buildMap (fun s => s.id) [] E1) SEED_SERVERS) :=
  coherent_seedPass SEED_SERVERS _ (coherent_buildMap _ E1 [] (coherent_nil _))

theorem loadedMap_nodup (E1 : List ServerItem) :
    KeysNodup (seedPass (buildMap (fun s => s.id) [] E1) SEED_SERVERS) :=
  keysNodup_seedPass SEED_SERVERS _ (keysNodup_buildMap _ E1 [] keysNodup_nil)

theorem loadedMap_lookup (E1 : List ServerItem) (k : String) :
    mapLookup (seedPass (buildMap (fun s => s.id) [] E1) SEED_SERVERS) k =
      match findLastKeyed (fun s => s.id) E1 k with
      | some v => some v
      | none => SEED_SERVERS.find? (fun s => s.id == k) := by
  rw [mapLookup_seedPass, mapLookup_buildMap]
  cases findLastKeyed (fun s => s.id) E1 k <;> simp [mapLookup_nil]

theorem mem_loadServers_array (E1 : List ServerItem) (e : ServerItem) :
    e ∈ loadServers (.array E1) ↔
      mapLookup (seedPass (buildMap (fun s => s.id) [] E1) SEED_SERVERS) e.id = some e := by
  rw [loadServers_array]
  exact mem_values_iff (fun s => s.id) _ (loadedMap_coherent E1) (loadedMap_nodup E1) e

/-! ### Claims -/

/-- C1: for every persisted entry collection `E1` and the bundled seed set,
`loadServers` on the parsed array returns a collection that contains every
seed id, whose id-set is the union of the ids of `E1` and of the seeds,
whose entries come either from `E1` or from the seeds whose id is not in
`E1` (which are all present), and in which any id present in `E1` is
carried by `E1`'s entry (persisted entries take precedence over seeds). -/
theorem C1_initialize_union (E1 : List ServerItem) :
    (∀ s ∈ SEED_SERVERS, ∃ e ∈ loadServers (.array E1), e.id = s.id) ∧
    (∀ i : String, i ∈ (loadServers (.array E1)).map (fun e => e.id) ↔
      (i ∈ E1.map (fun e => e.id) ∨ i ∈ SEED_SERVERS.map (fun e => e.id))) ∧
    (∀ e ∈ loadServers (.array E1),
      e ∈ E1 ∨ (e ∈ SEED_SERVERS ∧ ¬ e.id ∈ E1.map (fun x => x.id))) ∧
    (∀ s ∈ SEED_SERVERS, ¬ s.id ∈ E1.map (fun x => x.id) → s ∈ loadServers (.array E1)) ∧
    (∀ e ∈ loadServers (.array E1), e.id ∈ E1.map (fun x => x.id) → e ∈ E1) := by
  have hc := loadedMap_coherent E1
  have hn := loadedMap_nodup E1
  have hmemE : ∀ e ∈ loadServers (.array E1),
      e ∈ E1 ∨ (e ∈ SEED_SERVERS ∧ ¬ e.id ∈ E1.map (fun x => x.id)) := by
    intro e he
    have hl := (mem_loadServers_array E1 e).mp he
    rw [loadedMap_lookup] at hl
    cases hf : findLastKeyed (fun s => s.id) E1 e.id with
    | some v =>
        rw [hf] at hl
        have hv : v = e := by simpa using hl
        exact Or.inl (hv ▸ (findLastKeyed_spec _ E1 e.id v hf).1)
    | none =>
        rw [hf] at hl
        have hseed : e ∈ SEED_SERVERS := List.mem_of_find?_eq_some hl
        have hnot : ¬ e.id ∈ E1.map (fun x => x.id) := by
          intro hcon
          have := (findLastKeyed_isSome (fun s => s.id) E1 e.id).mpr hcon
          rw [hf] at this
          exact absurd this (by simp)
        exact Or.inr ⟨hseed, hnot⟩
  refine ⟨?_, ?_, hmemE, ?_, ?_⟩
  · intro s hs
    have hsome : (mapLookup (seedPass (buildMap (fun s => s.id) [] E1) SEED_SERVERS) s.id).isSome := by
      rw [loadedMap_lookup]
      cases hf : findLastKeyed (fun t => t.id) E1 s.id with
      | some v => rfl
      | none =>
          rw [List.find?_isSome]
          exact ⟨s, hs, by simp⟩
    obtain ⟨v, hv⟩ := Option.isSome_iff_exists.mp hsome
    obtain ⟨hvals, hkey⟩ := mem_of_mapLookup (fun s => s.id) _ hc s.id v hv
    exact ⟨v, by rw [loadServers_array]; exact hvals, hkey⟩
  · intro i
    have hkeys : (loadServers (.array E1)).map (fun e => e.id) =
        (seedPass (buildMap (fun s => s.id) [] E1) SEED_SERVERS).map (fun p => p.1) := by
      rw [loadServers_array]
      exact values_map_key (fun s => s.id) _ hc
    rw [hkeys, mem_keys_iff_isSome, loadedMap_lookup]
    cases hf : findLastKeyed (fun s => s.id) E1 i with
    | some v =>
        have : i ∈ E1.map (fun e => e.id) := by
          rw [← (findLastKeyed_isSome (fun s => s.id) E1 i)]
          rw [hf]
          rfl
        simp [this]
    | none =>
        have h1 : ¬ i ∈ E1.map (fun e => e.id) := by
          intro hcon
          have := (findLastKeyed_isSome (fun s => s.id) E1 i).mpr hcon
          rw [hf] at this
          exact absurd this (by simp)
        rw [List.find?_isSome]
        simp only [h1, false_or]
        constructor
        · rintro ⟨s, hs, hsi⟩
          exact List.mem_map.mpr ⟨s, hs, by simpa using hsi⟩
        · intro hcon
          obtain ⟨s, hs, hsi⟩ := List.mem_map.mp hcon
          exact ⟨s, hs, by simpa using hsi⟩
  · intro s hs hnot
    rw [mem_loadServers_array, loadedMap_lookup]
    have hf : findLastKeyed (fun t => t.id) E1 s.id = none := by
      cases hf : findLastKeyed (fun t => t.id) E1 s.id with
      | none => rfl
      | some v =>
          have : s.id ∈ E1.map (fun x => x.id) :=
            (findLastKeyed_isSome (fun t => t.id) E1 s.id).mp (by rw [hf]; rfl)
          exact absurd this hnot
    rw [hf]
    exact find?_id_of_nodup SEED_SERVERS seed_ids_nodup s hs
  · intro e he hid
    rcases hmemE e he with h1 | h1
    · exact h1
    · exact absurd hid h1.2

/-- Witness for C1: on an empty persisted array, the first seed id is
present in the loaded store. -/
theorem C1_initialize_union_witness :
    ∃ e ∈ loadServers (.array []), e.id = ("nexo") := by
  obtain ⟨e, he, hid⟩ := (C1_initialize_union []).1
    { id := ("nexo"), name := ("NexoX"), url := ("wss://nexo-app.net"),
      tags := [("PvP"), ("Economy"), ("Minigames"), ("Survival")],
      short := ("Explore endless adventures."), region := (""),
      votes := none, community := none, source := some ("TopEaglerServers") }
    (by decide)
  exact ⟨e, he, hid⟩

/-- C9: `loadServers` returns exactly the bundled seed set whenever the
persisted snapshot is absent, fails to parse, or is not an array; the
function is total, so such read failures are recovered locally and no
error is surfaced. -/
theorem C9_load_fallback (sv : StoredValue)
    (h : sv = StoredValue.absent ∨ sv = StoredValue.malformed ∨ sv = StoredValue.nonArray) :
    loadServers sv = SEED_SERVERS := by
  rcases h with h | h | h <;> rw [h] <;> rfl

/-- Witness for C9: an absent snapshot loads the seed set. -/
theorem C9_load_fallback_witness : loadServers StoredValue.absent = SEED_SERVERS :=
  C9_load_fallback StoredValue.absent (Or.inl rfl)

/-- C3: one `quickPing` invocation reports at most one terminal outcome;
a synchronous construction failure reports exactly the construction error,
and otherwise the first event to arrive (open, error or timer) determines
the single reported outcome — all later events are ignored by the `done`
latch. -/
theorem C3_quickPing_single (ctorFails : Bool) (events : List PingEvent) :
    (quickPingReports ctorFails events).length ≤ 1 ∧
    (ctorFails = true → quickPingReports ctorFails events = [PingOutcome.constructionError]) ∧
    (ctorFails = false → ∀ e es, events = e :: es →
      quickPingReports ctorFails events = [eventOutcome e]) := by
  refine ⟨?_, ?_, ?_⟩
  · cases ctorFails with
    | true => exact Nat.le_refl 1
    | false =>
        cases events with
        | nil => exact Nat.zero_le 1
        | cons e es =>
            rw [quickPingReports_cons]
            exact Nat.le_refl 1
  · intro h
    rw [h]
    rfl
  · intro h e es hev
    rw [h, hev]
    exact quickPingReports_cons e es

/-- Witness for C3: the probe-timeout scenario — the timer fires first and
the single reported outcome is `timedOut`. -/
theorem C3_quickPing_single_witness :
    quickPingReports false [PingEvent.timerFired] = [PingOutcome.timedOut] :=
  (C3_quickPing_single false [PingEvent.timerFired]).2.2 rfl PingEvent.timerFired [] rfl

/-- Counterexample for C4: the claim says the count of *surviving* records
is reported to the caller, but the import toast reports
`parsed.length` — the count of *input* records.  On the claim's own
scenario (one record with a non-`wss://` address) the output is empty yet
the reported count is 1. -/
theorem C4_count_counterexample :
    importCleaned 0 [{ name := some ("Bad"), url := some ("ftp://nope") }] = [] ∧
    importReportedCount [{ name := some ("Bad"), url := some ("ftp://nope") }] = 1 ∧
    importReportedCount [{ name := some ("Bad"), url := some ("ftp://nope") }] ≠
      (importCleaned 0 [{ name := some ("Bad"), url := some ("ftp://nope") }]).length := by
  refine ⟨by decide, rfl, by decide⟩

/-- C4 (amended): the sanitize step of `importList` drops exactly the
decoded records whose address does not start with `wss://` (so decoding a
list with only non-wss addresses yields an empty list, not an error — the
function is total), and the count reported to the caller is the length of
the *input* list, not the survivor count. -/
theorem C4_import_drops_nonwss (now : Nat) (list : List RawRecord) :
    (∀ e ∈ importCleaned now list, startsWithWss e.url = true) ∧
    (∀ e : ServerItem, e ∈ importCleaned now list ↔
      (e ∈ sanitizeList now 0 list ∧ startsWithWss e.url = true)) ∧
    importReportedCount list = list.length := by
  refine ⟨?_, ?_, rfl⟩
  · intro e he
    exact (List.mem_filter.mp he).2
  · intro e
    exact List.mem_filter

/-- Witness for C4 (amended): a surviving record of a concrete import
indeed carries a `wss://` address. -/
theorem C4_import_drops_nonwss_witness :
    startsWithWss ((sanitizeRecord 5 0 { url := some ("wss://ok.example") }).url) = true := by
  have h := (C4_import_drops_nonwss 5 [{ url := some ("wss://ok.example") }]).1
  exact h (sanitizeRecord 5 0 { url := some ("wss://ok.example") }) (by decide)

/-- Fixture: a persisted record with a non-`wss://` address, whose id
collides with `dupEntryB`. -/
def dupEntryA : ServerItem :=
  { id := ("dup"), name := ("A"), url := ("ftp://a"), tags := [], short := ("")
  , region := (""), votes := none, community := none, source := none }

/-- Fixture: a second persisted record carrying the same id as
`dupEntryA`. -/
def dupEntryB : ServerItem :=
  { id := ("dup"), name := ("B"), url := ("ftp://b"), tags := [], short := ("")
  , region := (""), votes := none, community := none, source := none }

/-- Fixture: a persisted record with an `ftp://` address and a fresh id. -/
def legacyEntry : ServerItem :=
  { id := ("legacy"), name := ("Old"), url := ("ftp://old.example"), tags := []
  , short := (""), region := (""), votes := none, community := none, source := none }

/-- Counterexample for C10: `loadServers` does not retain *every* record
of a well-formed persisted array — when two records share an id, the
later one replaces the earlier one, which is dropped. -/
theorem C10_retention_counterexample :
    ¬ dupEntryA ∈ loadServers (.array [dupEntryA, dupEntryB]) := by
  decide

/-- C10 (amended): `loadServers` applies no address validation to
persisted records — every record of a well-formed persisted array whose
ids are pairwise distinct is retained in the returned store, including
records whose address does not start with `wss://`. -/
theorem C10_no_address_validation (E1 : List ServerItem)
    (hn : (E1.map (fun e => e.id)).Nodup) :
    ∀ e ∈ E1, e ∈ loadServers (.array E1) := by
  intro e he
  rw [mem_loadServers_array, loadedMap_lookup]
  rw [findLastKeyed_of_nodup (fun s => s.id) E1 hn e he]

/-- Witness for C10 (amended): a persisted record with an `ftp://` address
survives `loadServers` untouched. -/
theorem C10_no_address_validation_witness :
    legacyEntry ∈ loadServers (.array [legacyEntry]) := by
  apply C10_no_address_validation _ (by decide)
  decide

theorem mergeMap_coherent (prev imported : List ServerItem) :
    Coherent mergeKey (buildMap mergeKey (buildMap mergeKey [] prev) imported) :=
  coherent_buildMap mergeKey imported _ (coherent_buildMap mergeKey prev [] (coherent_nil _))

theorem mergeMap_nodup (prev imported : List ServerItem) :
    KeysNodup (buildMap mergeKey (buildMap mergeKey [] prev) imported) :=
  keysNodup_buildMap mergeKey imported _ (keysNodup_buildMap mergeKey prev [] keysNodup_nil)

theorem mem_mergeServers (prev imported : List ServerItem) (e : ServerItem) :
    e ∈ mergeServers prev imported ↔
      mapLookup (buildMap mergeKey (buildMap mergeKey [] prev) imported) (mergeKey e) = some e :=
  mem_values_iff mergeKey _ (mergeMap_coherent prev imported) (mergeMap_nodup prev imported) e

/-- Fixture: the shape of a user-added custom entry (ids are
`custom-${Date.now()}`, so two adds in the same millisecond collide). -/
def customEntry : ServerItem :=
  { id := ("custom-1700000000000"), name := ("Test"), url := ("wss://test.example")
  , tags := [("PvP")], short := (""), region := (""), votes := none
  , community := some true, source := none }

/-- Counterexample for C2: `addServer` prepends unconditionally, so adding
an entry whose id is already in the store (here: the same custom entry
added twice, as happens for two adds in one millisecond) leaves two
entries with the same id in the store. -/
theorem C2_add_counterexample :
    ¬ (((addServer customEntry (addServer customEntry [])).map (fun e => e.id)).Nodup) := by
  decide

/-- C2 (amended): after `loadServers` no two entries share an id; after
`importList` no two entries share a merge key (`id` if nonempty, else
`address`), hence no two entries with nonempty ids share an id; `addServer`
preserves id-uniqueness only when the added entry's id is not already
present; and when two entries collide on a key the later-applied one wins
(persisted entries beat seeds in `loadServers`, imported entries beat the
previous store in `importList`). -/
theorem C2_store_id_unique :
    (∀ sv : StoredValue, ((loadServers sv).map (fun e => e.id)).Nodup) ∧
    (∀ (now : Nat) (prev : List ServerItem) (list : List RawRecord),
      ((importList now prev list).map mergeKey).Nodup) ∧
    (∀ (e : ServerItem) (prev : List ServerItem),
      ¬ e.id ∈ prev.map (fun x => x.id) → ((prev.map (fun x => x.id)).Nodup) →
      (((addServer e prev).map (fun x => x.id)).Nodup)) ∧
    (∀ (E1 : List ServerItem) (e : ServerItem), e ∈ loadServers (.array E1) →
      e.id ∈ E1.map (fun x => x.id) → e ∈ E1) ∧
    (∀ (now : Nat) (prev : List ServerItem) (list : List RawRecord) (e : ServerItem),
      e ∈ importList now prev list →
      mergeKey e ∈ (importCleaned now list).map mergeKey →
      e ∈ importCleaned now list) := by
  refine ⟨?_, ?_, ?_, ?_, ?_⟩
  · intro sv
    cases sv with
    | absent => exact seed_ids_nodup
    | malformed => exact seed_ids_nodup
    | nonArray => exact seed_ids_nodup
    | array E1 =>
        rw [loadServers_array, values_map_key (fun s => s.id) _ (loadedMap_coherent E1)]
        exact loadedMap_nodup E1
  · intro now prev list
    have h : importList now prev list = mergeServers prev (importCleaned now list) := rfl
    rw [h]
    have h2 : (mergeServers prev (importCleaned now list)).map mergeKey =
        (buildMap mergeKey (buildMap mergeKey [] prev) (importCleaned now list)).map
          (fun p => p.1) :=
      values_map_key mergeKey _ (mergeMap_coherent prev (importCleaned now list))
    rw [h2]
    exact mergeMap_nodup prev (importCleaned now list)
  · intro e prev hnot hn
    rw [addServer, List.map_cons, List.nodup_cons]
    exact ⟨hnot, hn⟩
  · intro E1 e he hid
    have hl := (mem_loadServers_array E1 e).mp he
    rw [loadedMap_lookup] at hl
    cases hf : findLastKeyed (fun s => s.id) E1 e.id with
    | some v =>
        rw [hf] at hl
        have hv : v = e := by simpa using hl
        exact hv ▸ (findLastKeyed_spec _ E1 e.id v hf).1
    | none =>
        have := (findLastKeyed_isSome (fun s => s.id) E1 e.id).mpr hid
        rw [hf] at this
        exact absurd this (by simp)
  · intro now prev list e he hkey
    have hl := (mem_mergeServers prev (importCleaned now list) e).mp he
    rw [mapLookup_buildMap] at hl
    cases hf : findLastKeyed mergeKey (importCleaned now list) (mergeKey e) with
    | some v =>
        rw [hf] at hl
        have hv : v = e := by simpa using hl
        exact hv ▸ (findLastKeyed_spec mergeKey _ (mergeKey e) v hf).1
    | none =>
        have := (findLastKeyed_isSome mergeKey (importCleaned now list) (mergeKey e)).mpr hkey
        rw [hf] at this
        exact absurd this (by simp)

/-- Witness for C2 (amended): adding a fresh custom entry to the loaded
seed store keeps ids pairwise distinct. -/
theorem C2_store_id_unique_witness :
    ((addServer customEntry SEED_SERVERS).map (fun x => x.id)).Nodup := by
  apply C2_store_id_unique.2.2.1 customEntry SEED_SERVERS
  · decide
  · decide

theorem mergeServers_lookup_idem (prev X : List ServerItem) (k : String) :
    mapLookup (buildMap mergeKey (buildMap mergeKey [] (mergeServers prev X)) X) k =
      mapLookup (buildMap mergeKey (buildMap mergeKey [] prev) X) k := by
  have hR : mapLookup (buildMap mergeKey (buildMap mergeKey [] prev) X) k =
      match findLastKeyed mergeKey X k with
      | some v => some v
      | none => mapLookup (buildMap mergeKey [] prev) k :=
    mapLookup_buildMap mergeKey X (buildMap mergeKey [] prev) k
  have hL1 : mapLookup (buildMap mergeKey (buildMap mergeKey [] (mergeServers prev X)) X) k =
      match findLastKeyed mergeKey X k with
      | some v => some v
      | none => mapLookup (buildMap mergeKey [] (mergeServers prev X)) k :=
    mapLookup_buildMap mergeKey X (buildMap mergeKey [] (mergeServers prev X)) k
  have hL2 : mapLookup (buildMap mergeKey [] (mergeServers prev X)) k =
      match findLastKeyed mergeKey (mergeServers prev X) k with
      | some v => some v
      | none => mapLookup [] k :=
    mapLookup_buildMap mergeKey (mergeServers prev X) [] k
  have hFL : findLastKeyed mergeKey (mergeServers prev X) k =
      mapLookup (buildMap mergeKey (buildMap mergeKey [] prev) X) k :=
    findLastKeyed_values mergeKey (buildMap mergeKey (buildMap mergeKey [] prev) X)
      (mergeMap_coherent prev X) (mergeMap_nodup prev X) k
  rw [hL1, hL2, hFL, hR]
  cases hf : findLastKeyed mergeKey X k with
  | some v => rfl
  | none =>
      cases mapLookup (buildMap mergeKey [] prev) k <;> rfl

/-- C6: `merge` is idempotent for a fixed already-decoded input list `X`:
merging `X` into `merge(prev, X)` yields the same set of entries as
`merge(prev, X)` (upsert by key = `id` if nonempty else `address`, later
entries winning). -/
theorem C6_merge_idempotent (prev X : List ServerItem) (e : ServerItem) :
    e ∈ mergeServers (mergeServers prev X) X ↔ e ∈ mergeServers prev X := by
  rw [mem_mergeServers, mem_mergeServers, mergeServers_lookup_idem]

/-- Fixture: an entry whose name and address concatenate to `ab` without
the separating space the code inserts. -/
def tinyEntry : ServerItem :=
  { id := ("t"), name := ("a"), url := ("b"), tags := [], short := ("")
  , region := (""), votes := none, community := none, source := none }

/-- Counterexample for C5: the code searches the *space-separated*
concatenation `name + " " + url`, not the plain concatenation of name and
address — a query spanning the name/address boundary matches the
specification's predicate but not the code's filter. -/
theorem C5_concat_counterexample :
    specTextMatch tinyEntry ("ab") = true ∧ matchesQ tinyEntry ("ab") = false := by
  decide

/-- C5 (amended): the text filter passes an entry iff the case-insensitive
*space-separated* concatenation `name ++ " " ++ address` contains the
query as a substring; an empty query passes every entry, and a query equal
to the upper-cased name of an entry always matches that entry. -/
theorem C5_text_filter (e : ServerItem) (q : String) :
    (matchesQ e q = true ↔ lowerStr q <:+: lowerStr (e.name ++ (" ") ++ e.url)) ∧
    matchesQ e ("") = true ∧
    matchesQ e (upperStr e.name) = true := by
  refine ⟨?_, ?_, ?_⟩
  · unfold matchesQ
    exact includesSubstr_iff _ _
  · unfold matchesQ
    rw [includesSubstr_iff]
    have h : lowerStr ("") = [] := rfl
    rw [h]
    exact List.nil_infix
  · unfold matchesQ
    rw [includesSubstr_iff, lowerStr_upperStr]
    rw [lowerStr_append, lowerStr_append]
    rw [List.append_assoc]
    exact (List.prefix_append (lowerStr e.name) _).isInfix

/-- Fixture: entry with five votes. -/
def votedA : ServerItem :=
  { id := ("va"), name := ("VA"), url := ("wss://va.example"), tags := [], short := ("")
  , region := (""), votes := some 5, community := none, source := none }

/-- Fixture: entry with three votes. -/
def votedB : ServerItem :=
  { id := ("vb"), name := ("VB"), url := ("wss://vb.example"), tags := [], short := ("")
  , region := (""), votes := some 3, community := none, source := none }

/-- C7: sorting a candidate set with `sortKey = votes` is a valid
descending stable sort: every adjacent output pair is descending in
`voteCount` (absent treated as 0), and the entries holding any fixed vote
count keep their relative input order. -/
theorem C7_votes_sort (l : List ServerItem) :
    (∀ i : Nat, ∀ h : i + 1 < (sortEntries .votes l).length,
      votesOr0 ((sortEntries .votes l).get ⟨i + 1, h⟩) ≤
        votesOr0 ((sortEntries .votes l).get ⟨i, Nat.lt_of_succ_lt h⟩)) ∧
    (∀ v : Int, (sortEntries .votes l).filter (fun e => votesOr0 e == v)
      = l.filter (fun e => votesOr0 e == v)) := by
  refine ⟨?_, sortVotes_filter_stable l⟩
  intro i h
  have hp := sortVotes_pairwise l
  rw [List.pairwise_iff_get] at hp
  exact hp ⟨i, Nat.lt_of_succ_lt h⟩ ⟨i + 1, h⟩ (Nat.lt_succ_self i)

/-- Witness for C7: on a concrete two-entry candidate set the sorted
output is adjacent-descending. -/
theorem C7_votes_sort_witness :
    votesOr0 ((sortEntries .votes [votedA, votedB]).get
        ⟨1, by simp [sortEntries, List.length_mergeSort]⟩) ≤
      votesOr0 ((sortEntries .votes [votedA, votedB]).get
        ⟨0, by simp [sortEntries, List.length_mergeSort]⟩) := by
  have h := (C7_votes_sort [votedA, votedB]).1 0
    (by simp [sortEntries, List.length_mergeSort])
  exact h

/-- Fixture: an entry with a non-`wss://` address (such entries can sit in
the store after `loadServers`, per C10). -/
def ftpEntry : ServerItem :=
  { id := ("f"), name := ("F"), url := ("ftp://nope"), tags := [], short := ("")
  , region := (""), votes := none, community := none, source := none }

/-- Counterexample for C8: the export/import round-trip does *not*
reproduce the address set of an arbitrary entry collection — an entry
whose address lacks the `wss://` prefix is dropped on re-import, so its
address disappears from the round-tripped set. -/
theorem C8_roundtrip_counterexample :
    ("ftp://nope") ∈ ([ftpEntry].map (fun e => e.url)) ∧
    ¬ ("ftp://nope") ∈ ((importCleaned 0 (encodeServers [ftpEntry])).map (fun e => e.url)) := by
  decide

theorem importCleaned_encode (now : Nat) (entries : List ServerItem)
    (h : ∀ e ∈ entries, startsWithWss e.url = true) :
    (importCleaned now (encodeServers entries)).map (fun e => e.url) =
      entries.map (fun e => e.url) := by
  have aux : ∀ (es : List ServerItem) (i : Nat), (∀ e ∈ es, startsWithWss e.url = true) →
      ((sanitizeList now i (es.map encodeRecord)).filter
          (fun s => startsWithWss s.url)).map (fun e => e.url)
        = es.map (fun e => e.url) := by
    intro es
    induction es with
    | nil =>
        intro i hw
        rfl
    | cons e es ih =>
        intro i hw
        rw [List.map_cons, sanitizeList, List.filter_cons]
        have hurl : (sanitizeRecord now i (encodeRecord e)).url = e.url := rfl
        have hww : startsWithWss (sanitizeRecord now i (encodeRecord e)).url = true := by
          rw [hurl]
          exact hw e (List.mem_cons_self _ _)
        rw [if_pos hww, List.map_cons, hurl]
        rw [ih (i + 1) (fun x hx => hw x (List.mem_cons_of_mem _ hx))]
        rw [List.map_cons]
  exact aux entries 0 h

/-- C8 (amended): for every entry collection whose addresses all carry the
`wss://` prefix, the export/import round-trip `decode(encode(entries))`
reproduces exactly the original set of address values (field-for-field
equality is not required — `isUserSupplied` is forced true on re-import). -/
theorem C8_export_roundtrip (now : Nat) (entries : List ServerItem)
    (h : ∀ e ∈ entries, startsWithWss e.url = true) (a : String) :
    a ∈ ((importCleaned now (encodeServers entries)).map (fun e => e.url)) ↔
      a ∈ (entries.map (fun e => e.url)) := by
  rw [importCleaned_encode now entries h]

/-- Witness for C8 (amended): a concrete all-`wss://` collection
round-trips to the same address set. -/
theorem C8_export_roundtrip_witness :
    ("wss://test.example") ∈
      ((importCleaned 7 (encodeServers [customEntry])).map (fun e => e.url)) := by
  have h := C8_export_roundtrip 7 [customEntry] (by decide) ("wss://test.example")
  exact h.mpr (by decide)
